import Mathlib

/-!
Shallow embedding of `src/engine.rs` from the `reed-solomon-simd` crate:
the GF(2^16) modular arithmetic helpers, the published field constants,
the `checked_next_multiple_of` utility, and the provided `Engine` trait
methods `formal_derivative`, `xor_within` and `eval_poly`.

Machine integers are modelled as `Nat` with explicit `% 2^w` at the points
where the Rust code truncates (`as u16`) or wraps (`wrapping_sub`,
`wrapping_add` on `u32`).
-/

namespace RsSimd

/-- Size of Galois field element in bits (`GF_BITS` in `engine.rs`). -/
def GF_BITS : Nat := 16

/-- Galois field order, i.e. number of elements (`GF_ORDER` in `engine.rs`). -/
def GF_ORDER : Nat := 65536

/-- `GF_ORDER - 1` (`GF_MODULUS` in `engine.rs`). -/
def GF_MODULUS : Nat := 65535

/-- Galois field polynomial (`GF_POLYNOMIAL` in `engine.rs`). -/
def GF_POLYNOMIAL : Nat := 0x1002D

/-- The fixed Cantor basis constants (`CANTOR_BASIS` in `engine.rs`),
an array of `GF_BITS` field elements. -/
def CANTOR_BASIS : List Nat :=
  [0x0001, 0xACCA, 0x3C0E, 0x163E, 0xC582, 0xED2E, 0x914C, 0x4012,
   0x6C98, 0x10D8, 0x6A72, 0xB900, 0xFDB8, 0xFB34, 0xFF38, 0x991E]

/-- `add_mod` from `engine.rs`:
`let sum = u32::from(x) + u32::from(y); (sum + (sum >> GF_BITS)) as GfElement`.
The `u32` sum of two 16-bit values cannot overflow; the final `as u16`
cast is the `% 65536`. -/
def add_mod (x y : Nat) : Nat :=
  let sum := x + y
  (sum + sum / 65536) % 65536

/-- `sub_mod` from `engine.rs`:
`let dif = u32::from(x).wrapping_sub(u32::from(y));
 dif.wrapping_add(dif >> GF_BITS) as GfElement`.
`wrapping_sub`/`wrapping_add` on `u32` are arithmetic modulo `2^32`
(for `x, y < 2^32` the wrapping subtraction is `(x + 2^32 - y) % 2^32`);
the final `as u16` cast is the `% 65536`. -/
def sub_mod (x y : Nat) : Nat :=
  let dif := (x + 4294967296 - y) % 4294967296
  ((dif + dif / 65536) % 4294967296) % 65536

/-- Closed form of `add_mod` on 16-bit inputs: the carry fold turns the
32-bit sum into `x + y` when no carry leaves bit 16 and `x + y - 65535`
otherwise. -/
theorem add_mod_closed_form (x y : Nat) (hx : x ≤ 65535) (hy : y ≤ 65535) :
    add_mod x y = if x + y < 65536 then x + y else x + y - 65535 := by
  simp only [add_mod]
  split <;> omega

/-- Closed form of `sub_mod` on 16-bit inputs: the wrapping difference plus
carry fold yields `x - y` when `y ≤ x` and `x + 65535 - y` otherwise. -/
theorem sub_mod_closed_form (x y : Nat) (hx : x ≤ 65535) (hy : y ≤ 65535) :
    sub_mod x y = if y ≤ x then x - y else x + 65535 - y := by
  simp only [sub_mod]
  split <;> omega

/-- Core behaviour of `add_mod` on 16-bit inputs: the result is a 16-bit
value congruent to `x + y` modulo `GF_MODULUS = 65535`, and it equals the
plain modular sum except that it may be `65535` where the plain sum is `0`. -/
theorem add_mod_core (x y : Nat) (hx : x ≤ 65535) (hy : y ≤ 65535) :
    add_mod x y ≤ 65535 ∧ add_mod x y % 65535 = (x + y) % 65535 ∧
      (add_mod x y = (x + y) % 65535 ∨
        (add_mod x y = 65535 ∧ (x + y) % 65535 = 0)) := by
  rw [add_mod_closed_form x y hx hy]
  split <;> omega

/-- Core behaviour of `sub_mod` on 16-bit inputs: the result is a 16-bit
value congruent to `x - y` modulo `GF_MODULUS = 65535` (as integers), and
it equals the plain modular difference except that it may be `65535`
where the plain difference is `0`. -/
theorem sub_mod_core (x y : Nat) (hx : x ≤ 65535) (hy : y ≤ 65535) :
    sub_mod x y ≤ 65535 ∧
      (sub_mod x y : Int) % 65535 = ((x : Int) - (y : Int)) % 65535 ∧
      ((sub_mod x y : Int) = ((x : Int) - (y : Int)) % 65535 ∨
        (sub_mod x y = 65535 ∧ ((x : Int) - (y : Int)) % 65535 = 0)) := by
  rw [sub_mod_closed_form x y hx hy]
  split <;> omega

/-- C1 counterexample: at `x = 65535, y = 0` the code returns `65535`
while the plain modular reference `(x + y) % 65535` returns `0`, so
`add_mod` does not equal the plain modular sum on all of `[0, 65535]`
(and `sub_mod 65535 0 = 65535` likewise differs from `(x - y) % 65535 = 0`). -/
theorem add_mod_ne_plain_mod_at_65535_0 :
    add_mod 65535 0 = 65535 ∧ (65535 + 0) % 65535 = 0 ∧
      sub_mod 65535 0 = 65535 ∧ ((65535 : Int) - 0) % 65535 = 0 ∧
      add_mod 65535 0 ≠ (65535 + 0) % 65535 ∧
      (sub_mod 65535 0 : Int) ≠ ((65535 : Int) - 0) % 65535 := by
  refine ⟨by decide, by decide, by decide, by decide, by decide, by decide⟩

/-- C1 (amended): for all `x, y` in `[0, 65535]`, `add_mod x y` is congruent
to `(x + y) % 65535` and `sub_mod x y` to `(x - y) % 65535` (plain modular
arithmetic on integers), both results lie in `[0, 65535]`, and each equals
the plain modular value except that it may return `65535` where the plain
value is `0`. -/
theorem add_sub_mod_match_plain_modular (x y : Nat)
    (hx : x ≤ 65535) (hy : y ≤ 65535) :
    add_mod x y ≤ 65535 ∧ sub_mod x y ≤ 65535 ∧
      (add_mod x y = (x + y) % 65535 ∨
        (add_mod x y = 65535 ∧ (x + y) % 65535 = 0)) ∧
      ((sub_mod x y : Int) = ((x : Int) - (y : Int)) % 65535 ∨
        (sub_mod x y = 65535 ∧ ((x : Int) - (y : Int)) % 65535 = 0)) := by
  obtain ⟨ha1, _, ha3⟩ := add_mod_core x y hx hy
  obtain ⟨hs1, _, hs3⟩ := sub_mod_core x y hx hy
  exact ⟨ha1, hs1, ha3, hs3⟩

/-- Witness for `add_sub_mod_match_plain_modular` at `x = 7, y = 65534`. -/
theorem add_sub_mod_match_plain_modular_witness :
    (7 : Nat) ≤ 65535 ∧ (65534 : Nat) ≤ 65535 ∧
      (add_mod 7 65534 ≤ 65535 ∧ sub_mod 7 65534 ≤ 65535 ∧
        (add_mod 7 65534 = (7 + 65534) % 65535 ∨
          (add_mod 7 65534 = 65535 ∧ (7 + 65534) % 65535 = 0)) ∧
        ((sub_mod 7 65534 : Int) = ((7 : Int) - (65534 : Int)) % 65535 ∨
          (sub_mod 7 65534 = 65535 ∧
            ((7 : Int) - (65534 : Int)) % 65535 = 0))) :=
  ⟨by decide, by decide,
    add_sub_mod_match_plain_modular 7 65534 (by decide) (by decide)⟩

/-- C2 counterexample: at `x = 65535, y = 1` we have
`add_mod 65535 1 = 1` and `sub_mod 1 1 = 0 ≠ 65535`, so subtraction by a
fixed second operand is not the inverse of addition on all of `[0, 65535]`. -/
theorem sub_add_not_inverse_at_65535_1 :
    sub_mod (add_mod 65535 1) 1 = 0 ∧ sub_mod (add_mod 65535 1) 1 ≠ 65535 := by
  refine ⟨by decide, by decide⟩

/-- C2 (amended): for every `x` in `[0, 65534]` and every `y` in
`[0, 65535]`, `sub_mod (add_mod x y) y = x`; the law fails only at
`x = 65535` with `y ≠ 0`. -/
theorem sub_mod_add_mod_cancel (x y : Nat) (hx : x ≤ 65534) (hy : y ≤ 65535) :
    sub_mod (add_mod x y) y = x := by
  have hx' : x ≤ 65535 := by omega
  rw [add_mod_closed_form x y hx' hy]
  split
  · rw [sub_mod_closed_form (x + y) y (by omega) hy]
    split <;> omega
  · rw [sub_mod_closed_form (x + y - 65535) y (by omega) hy]
    split <;> omega

/-- Witness for `sub_mod_add_mod_cancel` at `x = 40000, y = 60000`. -/
theorem sub_mod_add_mod_cancel_witness :
    (40000 : Nat) ≤ 65534 ∧ (60000 : Nat) ≤ 65535 ∧
      sub_mod (add_mod 40000 60000) 60000 = 40000 :=
  ⟨by decide, by decide, sub_mod_add_mod_cancel 40000 60000 (by decide) (by decide)⟩

/-- C10: for every pair of 16-bit values `x, y`, `add_mod x y` is congruent
to `x + y` modulo `65535` and `sub_mod x y` is congruent to `x - y` modulo
`65535`, both results lie in `[0, 65535]`, and whenever a result differs
from the plain modular reference, the result is `65535` and the reference
is `0`. -/
theorem add_sub_mod_congruent_mod_65535 (x y : Nat) (hx : x < 65536) (hy : y < 65536) :
    add_mod x y % 65535 = (x + y) % 65535 ∧
      (sub_mod x y : Int) % 65535 = ((x : Int) - (y : Int)) % 65535 ∧
      add_mod x y ≤ 65535 ∧ sub_mod x y ≤ 65535 ∧
      (add_mod x y ≠ (x + y) % 65535 →
        add_mod x y = 65535 ∧ (x + y) % 65535 = 0) ∧
      ((sub_mod x y : Int) ≠ ((x : Int) - (y : Int)) % 65535 →
        sub_mod x y = 65535 ∧ ((x : Int) - (y : Int)) % 65535 = 0) := by
  obtain ⟨ha1, ha2, ha3⟩ := add_mod_core x y (by omega) (by omega)
  obtain ⟨hs1, hs2, hs3⟩ := sub_mod_core x y (by omega) (by omega)
  refine ⟨ha2, hs2, ha1, hs1, ?_, ?_⟩
  · intro hne
    rcases ha3 with h | h
    · exact absurd h hne
    · exact h
  · intro hne
    rcases hs3 with h | h
    · exact absurd h hne
    · exact h

/-- Witness for `add_sub_mod_congruent_mod_65535` at `x = 65535, y = 65535`. -/
theorem add_sub_mod_congruent_mod_65535_witness :
    (65535 : Nat) < 65536 ∧
      (add_mod 65535 65535 % 65535 = (65535 + 65535) % 65535 ∧
        (sub_mod 65535 65535 : Int) % 65535 =
          ((65535 : Int) - (65535 : Int)) % 65535 ∧
        add_mod 65535 65535 ≤ 65535 ∧ sub_mod 65535 65535 ≤ 65535 ∧
        (add_mod 65535 65535 ≠ (65535 + 65535) % 65535 →
          add_mod 65535 65535 = 65535 ∧ (65535 + 65535) % 65535 = 0) ∧
        ((sub_mod 65535 65535 : Int) ≠ ((65535 : Int) - (65535 : Int)) % 65535 →
          sub_mod 65535 65535 = 65535 ∧
            ((65535 : Int) - (65535 : Int)) % 65535 = 0)) :=
  ⟨by decide, add_sub_mod_congruent_mod_65535 65535 65535 (by decide) (by decide)⟩

/-- C7: the published numeric constants have exactly the promised values:
`GF_BITS = 16`, `GF_ORDER = 65536 = 2^16`, `GF_MODULUS = 65535 = GF_ORDER - 1`,
`GF_POLYNOMIAL` is the fixed value `0x1002D`, which is exactly 17 bits wide,
and `CANTOR_BASIS` is the fixed ordered list of exactly 16 constants. -/
theorem published_constants :
    GF_BITS = 16 ∧ GF_ORDER = 65536 ∧ GF_MODULUS = 65535 ∧
      GF_MODULUS = GF_ORDER - 1 ∧ GF_ORDER = 2 ^ GF_BITS ∧
      GF_POLYNOMIAL = 0x1002D ∧
      2 ^ 16 ≤ GF_POLYNOMIAL ∧ GF_POLYNOMIAL < 2 ^ 17 ∧
      CANTOR_BASIS.length = 16 ∧
      CANTOR_BASIS =
        [0x0001, 0xACCA, 0x3C0E, 0x163E, 0xC582, 0xED2E, 0x914C, 0x4012,
         0x6C98, 0x10D8, 0x6A72, 0xB900, 0xFDB8, 0xFB34, 0xFF38, 0x991E] := by
  refine ⟨rfl, rfl, rfl, by decide, by decide, rfl, by decide, by decide,
    by decide, rfl⟩

/-- `usize::checked_mul` modelled for a `w`-bit unsigned native integer:
`some (x * y)` when the product fits in `w` bits, `none` on overflow. -/
def checked_mul (w x y : Nat) : Option Nat :=
  if x * y < 2 ^ w then some (x * y) else none

/-- `checked_next_multiple_of` from `engine.rs`:
`if b == 0 { None } else { let mut x = a / b; x += if a % b != 0 { 1 } else { 0 };
 x.checked_mul(b) }`, over a `w`-bit native unsigned integer type. -/
def checked_next_multiple_of (w a b : Nat) : Option Nat :=
  if b = 0 then none
  else checked_mul w (a / b + (if a % b ≠ 0 then 1 else 0)) b

/-- The quantity computed before the checked multiplication, times `b`,
is the least multiple of `b` that is `≥ a` (for `b ≠ 0`). -/
theorem next_multiple_least (a b : Nat) (hb : b ≠ 0) :
    a ≤ (a / b + (if a % b ≠ 0 then 1 else 0)) * b ∧
      b ∣ (a / b + (if a % b ≠ 0 then 1 else 0)) * b ∧
      ∀ m, a ≤ m → b ∣ m → (a / b + (if a % b ≠ 0 then 1 else 0)) * b ≤ m := by
  have hbpos : 0 < b := Nat.pos_of_ne_zero hb
  have hdm : b * (a / b) + a % b = a := Nat.div_add_mod a b
  have hmod : a % b < b := Nat.mod_lt a hbpos
  by_cases hr : a % b = 0
  · have hba : b ∣ a := Nat.dvd_of_mod_eq_zero hr
    have hq : (a / b + (if a % b ≠ 0 then 1 else 0)) * b = a := by
      rw [if_neg (by simp [hr])]
      rw [Nat.add_zero, Nat.div_mul_cancel hba]
    refine ⟨by rw [hq], by rw [hq]; exact hba, fun m hm _ => by rw [hq]; exact hm⟩
  · have hq : (a / b + (if a % b ≠ 0 then 1 else 0)) * b = b * (a / b) + b := by
      rw [if_pos hr, Nat.add_mul, Nat.one_mul, Nat.mul_comm b (a / b)]
    refine ⟨by omega, ?_, ?_⟩
    · rw [hq]
      exact Dvd.dvd.add (Dvd.intro _ rfl) (dvd_refl b)
    · intro m hm hdvd
      obtain ⟨k, hk⟩ := hdvd
      rw [hq, hk]
      have hdk : a / b < k := by
        by_contra hcon
        have hk' : k ≤ a / b := Nat.le_of_not_lt hcon
        have : b * k ≤ b * (a / b) := Nat.mul_le_mul le_rfl hk'
        omega
      have hmul : b * (a / b + 1) ≤ b * k := Nat.mul_le_mul le_rfl hdk
      rw [Nat.mul_add, Nat.mul_one] at hmul
      omega

/-- C4: `checked_next_multiple_of` returns `none` iff the stride is zero or
every multiple of the stride that is `≥ a` overflows the `w`-bit native
width; on `some m`, `m` is the least multiple of `b` that is `≥ a`.
In particular, for 64-bit integers, the examples from the spec hold. -/
theorem checked_next_multiple_of_spec (w a b : Nat)
    (ha : a < 2 ^ w) (hb : b < 2 ^ w) :
    (checked_next_multiple_of w a b = none ↔
      b = 0 ∨ ∀ m, a ≤ m → b ∣ m → 2 ^ w ≤ m) ∧
      (∀ m, checked_next_multiple_of w a b = some m →
        a ≤ m ∧ b ∣ m ∧ ∀ k, a ≤ k → b ∣ k → m ≤ k) ∧
      checked_next_multiple_of 64 20 10 = some 20 ∧
      checked_next_multiple_of 64 27 10 = some 30 ∧
      (∀ n, checked_next_multiple_of 64 n 0 = none) ∧
      checked_next_multiple_of 64 (2 ^ 64 - 1) 2 = none := by
  refine ⟨?_, ?_, by decide, by decide,
    fun n => by simp [checked_next_multiple_of], by decide⟩
  · by_cases hb0 : b = 0
    · simp [checked_next_multiple_of, hb0]
    · obtain ⟨h1, h2, h3⟩ := next_multiple_least a b hb0
      simp only [checked_next_multiple_of, checked_mul, if_neg hb0]
      constructor
      · intro hnone
        refine Or.inr fun m hm hdvd => ?_
        by_cases hlt : (a / b + (if a % b ≠ 0 then 1 else 0)) * b < 2 ^ w
        · rw [if_pos hlt] at hnone
          exact absurd hnone (by simp)
        · exact le_trans (Nat.le_of_not_lt hlt) (h3 m hm hdvd)
      · intro hcase
        rcases hcase with h | h
        · exact absurd h hb0
        · have := h _ h1 h2
          rw [if_neg (by omega)]
  · intro m hm
    by_cases hb0 : b = 0
    · simp [checked_next_multiple_of, hb0] at hm
    · obtain ⟨h1, h2, h3⟩ := next_multiple_least a b hb0
      simp only [checked_next_multiple_of, checked_mul, if_neg hb0] at hm
      by_cases hlt : (a / b + (if a % b ≠ 0 then 1 else 0)) * b < 2 ^ w
      · rw [if_pos hlt] at hm
        obtain rfl : (a / b + (if a % b ≠ 0 then 1 else 0)) * b = m :=
          Option.some.inj hm
        exact ⟨h1, h2, h3⟩
      · rw [if_neg hlt] at hm
        exact absurd hm (by simp)

/-- Witness for `checked_next_multiple_of_spec` at `w = 64, a = 27, b = 10`. -/
theorem checked_next_multiple_of_spec_witness :
    (27 : Nat) < 2 ^ 64 ∧ (10 : Nat) < 2 ^ 64 ∧
      ((checked_next_multiple_of 64 27 10 = none ↔
          (10 : Nat) = 0 ∨ ∀ m, 27 ≤ m → 10 ∣ m → 2 ^ 64 ≤ m) ∧
        (∀ m, checked_next_multiple_of 64 27 10 = some m →
          27 ≤ m ∧ 10 ∣ m ∧ ∀ k, 27 ≤ k → 10 ∣ k → m ≤ k) ∧
        checked_next_multiple_of 64 20 10 = some 20 ∧
        checked_next_multiple_of 64 27 10 = some 30 ∧
        (∀ n, checked_next_multiple_of 64 n 0 = none) ∧
        checked_next_multiple_of 64 (2 ^ 64 - 1) 2 = none) :=
  ⟨by decide, by decide,
    checked_next_multiple_of_spec 64 27 10 (by decide) (by decide)⟩

/-- `Engine::xor` (`x[] ^= y[]`): byte-wise XOR of two equal-length
buffers, modelled as element-wise `Nat` XOR of two rows. -/
def row_xor (x y : List Nat) : List Nat := List.zipWith (· ^^^ ·) x y

/-- `Engine::xor_within` from `engine.rs`:
`data[x .. x + count] ^= data[y .. y + count]`. Rows `x + j` (for
`j < count`) are replaced by their XOR with the corresponding rows
`y + j` of the original buffer; the two row ranges must not overlap
(caller obligation), in which case reading from the original buffer is
exact. -/
def xor_within (data : List (List Nat)) (x y count : Nat) : List (List Nat) :=
  (List.range data.length).map fun i =>
    if x ≤ i ∧ i < x + count then
      row_xor (data.getD i []) (data.getD (y + (i - x)) [])
    else data.getD i []

/-- The window width computed by `Engine::formal_derivative`:
`let width: usize = ((i ^ (i - 1)) + 1) >> 1`. -/
def fd_width (i : Nat) : Nat := ((i ^^^ (i - 1)) + 1) >>> 1

/-- `Engine::formal_derivative` from `engine.rs`:
`for i in 1..data.len() { let width: usize = ((i ^ (i - 1)) + 1) >> 1;
 Self::xor_within(data, i - width, i, width); }`.
The loop index runs over `1, 2, ..., data.len() - 1` in order; each step
XORs source rows `[i, i + width)` into destination rows `[i - width, i)`. -/
def formal_derivative (data : List (List Nat)) : List (List Nat) :=
  (List.range' 1 (data.length - 1)).foldl
    (fun d i => xor_within d (i - fd_width i) i (fd_width i)) data

/-- The derivative step in the direction the spec sentence describes:
"XOR the window `[i - width, i)` into position `[i, i + width)`", i.e.
destination rows `[i, i + width)` and source rows `[i - width, i)`. -/
def formal_derivative_claimed (data : List (List Nat)) : List (List Nat) :=
  (List.range' 1 (data.length - 1)).foldl
    (fun d i => xor_within d i (i - fd_width i) (fd_width i)) data

/-- Step-wise unrolling of the derivative loop: starting from index `i`,
perform `fuel` steps at consecutive, strictly increasing indices
`i, i + 1, ...`, each XOR-ing source rows `[i, i + width)` into
destination rows `[i - width, i)`. -/
def fd_iter : Nat → List (List Nat) → Nat → List (List Nat)
  | 0, d, _ => d
  | fuel + 1, d, i =>
      fd_iter fuel (xor_within d (i - fd_width i) i (fd_width i)) (i + 1)

/-- The fold over `List.range'` agrees with the step-wise unrolling. -/
theorem fd_foldl_eq_iter (fuel : Nat) :
    ∀ (d : List (List Nat)) (i : Nat),
      (List.range' i fuel).foldl
        (fun d j => xor_within d (j - fd_width j) j (fd_width j)) d =
        fd_iter fuel d i := by
  induction fuel with
  | zero => intro d i; rfl
  | succ n ih =>
      intro d i
      rw [List.range'_succ, List.foldl_cons, fd_iter]
      exact ih _ _

/-- C3 counterexample: on the two-row buffer `[[0], [1]]` (index 1 has
width 1) the code XORs row 1 into row 0, producing `[[1], [1]]`, whereas
the claimed direction (window `[i - width, i)` XOR-ed into `[i, i + width)`)
would leave row 0 untouched and produce `[[0], [1]]`. -/
theorem formal_derivative_direction_counterexample :
    formal_derivative [[0], [1]] = [[1], [1]] ∧
      formal_derivative_claimed [[0], [1]] = [[0], [1]] ∧
      formal_derivative [[0], [1]] ≠ formal_derivative_claimed [[0], [1]] := by
  refine ⟨by decide, by decide, by decide⟩

/-- C3 (amended): `formal_derivative` visits the indices
`1, 2, ..., length - 1` in strictly increasing order, and at each index `i`
computes `width = ((i ^^^ (i - 1)) + 1) >>> 1` and XORs the source window
`[i, i + width)` into the destination window `[i - width, i)` (the reverse
of the direction in the claim). -/
theorem formal_derivative_eq_iter (data : List (List Nat)) :
    formal_derivative data = fd_iter (data.length - 1) data 1 := by
  rw [formal_derivative]
  exact fd_foldl_eq_iter (data.length - 1) data 1

/-- The loop width never exceeds the loop index: for `i ≥ 1`,
`fd_width i = ((i ^^^ (i - 1)) + 1) >>> 1 ≤ i`. -/
theorem fd_width_le (i : Nat) (h : 1 ≤ i) : fd_width i ≤ i := by
  have hs : 0 < i.size := Nat.size_pos.mpr h
  have h1 : i < 2 ^ i.size := Nat.lt_size_self i
  have h2 : i - 1 < 2 ^ i.size := lt_of_le_of_lt (Nat.sub_le i 1) h1
  have h3 : i ^^^ (i - 1) < 2 ^ i.size := Nat.bitwise_lt h1 h2
  have h4 : 2 ^ (i.size - 1) ≤ i := Nat.lt_size.mp (by omega)
  have h5 : i.size = (i.size - 1) + 1 := by omega
  rw [h5, pow_succ] at h3
  rw [fd_width, Nat.shiftRight_eq_div_pow, pow_one]
  omega

/-- C8: every `xor_within` call issued by `formal_derivative` passes
non-overlapping row ranges: for every buffer length `n` and loop index
`i ∈ {1, ..., n - 1}`, the width satisfies `fd_width i ≤ i` (so the
destination range does not underflow and really is `[i - width, i)`),
and the destination range `[i - width, i)` is disjoint from the source
range `[i, i + width)`. -/
theorem formal_derivative_ranges_disjoint (n i : Nat) (h1 : 1 ≤ i) (h2 : i < n) :
    fd_width i ≤ i ∧ (i - fd_width i) + fd_width i = i ∧
      Disjoint (Finset.Ico (i - fd_width i) i) (Finset.Ico i (i + fd_width i)) := by
  have hw := fd_width_le i h1
  exact ⟨hw, by omega, Finset.Ico_disjoint_Ico_consecutive _ i _⟩

/-- Witness for `formal_derivative_ranges_disjoint` at `n = 7, i = 6`
(where `fd_width 6 = 2`: destination `[4, 6)`, source `[6, 8)`). -/
theorem formal_derivative_ranges_disjoint_witness :
    (1 : Nat) ≤ 6 ∧ (6 : Nat) < 7 ∧
      (fd_width 6 ≤ 6 ∧ (6 - fd_width 6) + fd_width 6 = 6 ∧
        Disjoint (Finset.Ico (6 - fd_width 6) 6) (Finset.Ico 6 (6 + fd_width 6))) :=
  ⟨by decide, by decide,
    formal_derivative_ranges_disjoint 7 6 (by decide) (by decide)⟩

/-- `eval_poly` from `engine.rs`:
```
let log_walsh = tables::initialize_log_walsh();
fwht::fwht(erasures, truncated_size);
for (e, factor) in std::iter::zip(erasures.iter_mut(), log_walsh.iter()) {
    let product = u32::from(*e) * u32::from(*factor);
    *e = add_mod(product as GfElement, (product >> GF_BITS) as GfElement);
}
fwht::fwht(erasures, GF_ORDER);
```
Modelled from the spec: the callees `fwht::fwht` (the in-place truncated
Walsh-Hadamard transform of §4.3) and `tables::initialize_log_walsh`
(the precomputed Walsh spectrum table of the table provider contract, §6)
are not under `src/`, so they are taken here as explicit parameters
`fwht` and `log_walsh`. The `as GfElement` casts are `% 65536`, and
`product >> GF_BITS` is `product / 65536`. -/
def eval_poly (fwht : List Nat → Nat → List Nat) (log_walsh : List Nat)
    (erasures : List Nat) (truncated_size : Nat) : List Nat :=
  let e1 := fwht erasures truncated_size
  let e2 := List.zipWith
    (fun e factor =>
      let product := e * factor
      add_mod (product % 65536) (product / 65536 % 65536))
    e1 log_walsh
  fwht e2 GF_ORDER

/-- The element-wise multiply step of `eval_poly` as the spec describes it:
field multiplication whose 32-bit product is folded with the same 16-bit
carry fold as `add_mod` (the product's low 16 bits are `add_mod`-ed with
its high 16 bits). -/
def mul_fold (e factor : Nat) : Nat :=
  add_mod (e * factor % 65536) (e * factor / 65536 % 65536)

/-- Folding a 32-bit value's high 16 bits onto its low 16 bits preserves
the residue modulo `65535` (because `2^16 ≡ 1 (mod 65535)`). -/
theorem low_high_fold_congr (p : Nat) (hp : p < 4294967296) :
    (p % 65536 + p / 65536 % 65536) % 65535 = p % 65535 := by
  have hq : p / 65536 < 65536 := by omega
  rw [Nat.mod_eq_of_lt hq]
  have hdm : 65536 * (p / 65536) + p % 65536 = p := Nat.div_add_mod p 65536
  have hsplit : p = (p % 65536 + p / 65536) + 65535 * (p / 65536) := by omega
  conv_rhs => rw [hsplit]
  rw [Nat.add_mul_mod_self_left]

/-- C6: `eval_poly` is exactly the composition of the three steps, in
order: the transform truncated to `truncated_size`, the element-wise
multiplication of each entry by the corresponding Walsh spectrum table
entry via `mul_fold`, then the full-length (`GF_ORDER`-element) transform.
Moreover `mul_fold` really is field multiplication under the carry fold:
for 16-bit `a, b` its result is a 16-bit value congruent to `a * b`
modulo `GF_MODULUS = 65535`. -/
theorem eval_poly_steps (fwht : List Nat → Nat → List Nat)
    (log_walsh erasures : List Nat) (truncated_size : Nat)
    (a b : Nat) (ha : a ≤ 65535) (hb : b ≤ 65535) :
    eval_poly fwht log_walsh erasures truncated_size =
      fwht (List.zipWith mul_fold (fwht erasures truncated_size) log_walsh)
        GF_ORDER ∧
      mul_fold a b ≤ 65535 ∧ mul_fold a b % 65535 = (a * b) % 65535 := by
  refine ⟨rfl, ?_, ?_⟩
  · have hp : a * b ≤ 65535 * 65535 := Nat.mul_le_mul ha hb
    have := add_mod_core (a * b % 65536) (a * b / 65536 % 65536)
      (by omega) (by omega)
    exact this.1
  · have hp : a * b ≤ 65535 * 65535 := Nat.mul_le_mul ha hb
    obtain ⟨h1, h2, h3⟩ := add_mod_core (a * b % 65536) (a * b / 65536 % 65536)
      (by omega) (by omega)
    rw [mul_fold, h2]
    exact low_high_fold_congr (a * b) (by omega)

/-- Witness for `eval_poly_steps` with the identity transform, table
`[2, 3]`, input `[4, 5]`, truncation `1`, and `a = 3, b = 65535`. -/
theorem eval_poly_steps_witness :
    (3 : Nat) ≤ 65535 ∧ (65535 : Nat) ≤ 65535 ∧
      (eval_poly (fun l _ => l) [2, 3] [4, 5] 1 =
        (fun (l : List Nat) (_ : Nat) => l)
          (List.zipWith mul_fold
            ((fun (l : List Nat) (_ : Nat) => l) [4, 5] 1) [2, 3]) GF_ORDER ∧
        mul_fold 3 65535 ≤ 65535 ∧
        mul_fold 3 65535 % 65535 = (3 * 65535) % 65535) :=
  ⟨by decide, by decide,
    eval_poly_steps (fun l _ => l) [2, 3] [4, 5] 1 3 65535 (by decide) (by decide)⟩

/-- C9: `eval_poly` is deterministic — two calls with the same transform,
identical lookup-table state and identical input contents produce identical
output arrays. -/
theorem eval_poly_deterministic (fwht : List Nat → Nat → List Nat)
    (lw1 lw2 e1 e2 : List Nat) (t1 t2 : Nat)
    (hlw : lw1 = lw2) (he : e1 = e2) (ht : t1 = t2) :
    eval_poly fwht lw1 e1 t1 = eval_poly fwht lw2 e2 t2 := by
  subst hlw
  subst he
  subst ht
  rfl

/-- Witness for `eval_poly_deterministic` with the identity transform,
table `[5]`, input `[6]`, truncation `7`. -/
theorem eval_poly_deterministic_witness :
    ([5] : List Nat) = [5] ∧
      eval_poly (fun l _ => l) [5] [6] 7 = eval_poly (fun l _ => l) [5] [6] 7 :=
  ⟨rfl, eval_poly_deterministic (fun l _ => l) [5] [5] [6] [6] 7 7 rfl rfl rfl⟩

end RsSimd
